import Mathlib

/-!
# raft-badger-test: the state machine and its key-value store

A shallow embedding of `storage/badger.go` (`BadgerStore.Mutate`, `GetRange`, `Get`)
and `fsm/fsm.go` (`FSM.Apply`, `Snapshot`, `Restore`, `applyAdd`), followed by the
properties of the specification that were checked against it.

Conventions.
* A Go `[]byte` and a Go `string` are both `Bytes`; a nil slice is `[]`.
* A Go `(T, error)` result of which exactly one half is nil is an `Except Error T`.
* A call that may halt the process returns an outcome type with a `panic` case.
* The storage engine (badger) and `encoding/json` are libraries outside the
  repository. The engine is modelled as a key-ordered list of items together with the
  conditions under which each of its primitives reports an error or, for the iterator,
  ends the process; an iterator does not show the items whose key begins with the
  engine's own prefix `!badger!`. The decoders are fields of `Env`.
-/

namespace RaftBadger

/-! ## Bytes and their order -/

abbrev Byte := Fin 256
abbrev Bytes := List Byte

/-- Go `bytes.Compare`: lexicographic comparison, result `-1`, `0` or `1`. -/
def bytesCompare : Bytes → Bytes → Int
  | [], [] => 0
  | [], _ :: _ => -1
  | _ :: _, [] => 1
  | a :: as, b :: bs =>
    if a < b then -1 else if b < a then 1 else bytesCompare as bs

/-! ## Errors -/

/-- The error values that occur. `ErrKeyNotFound` is `badger.ErrKeyNotFound`; `badger c`
is any other error value of the storage engine. -/
inductive Error where
  | ErrKeyNotFound
  | badger (code : Nat)
  | unmarshal (code : Nat)
  | unknownCommand (t : Nat)
  | load (code : Nat)
  deriving DecidableEq, Repr

/-! ## The storage engine -/

/-- The state of a `badger.DB`: its items in ascending key order, and for each primitive
the inputs on which it reports an error (with which code). -/
structure DB where
  items : List (Bytes × Bytes)
  /-- The call `txn.Get k` fails with an error other than `ErrKeyNotFound`. -/
  getFault : Bytes → Option Nat
  /-- The call `item.ValueCopy` fails for the item stored under this key. -/
  valueFault : Bytes → Option Nat
  /-- The call `txn.Set k v` is rejected. -/
  setFault : Bytes → Bytes → Option Nat
  /-- Committing these pending writes fails. -/
  commitFault : List (Bytes × Bytes) → Option Nat
  /-- The call `it.Seek k` runs into a fatal assertion of the engine, which exits the
  process (seen on a store that holds a key of 65528 bytes). -/
  seekFault : Bytes → Bool
  /-- The call `it.Next()` from the item with this key runs into such an assertion. -/
  nextFault : Bytes → Bool

/-- The item stored under key `k`, if any. -/
def lookup (k : Bytes) : List (Bytes × Bytes) → Option Bytes
  | [] => none
  | (k', v') :: rest => if k' = k then some v' else lookup k rest

/-- Writing `k ↦ v` into a key-ordered list of items: replaces the value of `k` or
inserts the item at its place in the order. -/
def put (k v : Bytes) : List (Bytes × Bytes) → List (Bytes × Bytes)
  | [] => [(k, v)]
  | (k', v') :: rest =>
    if bytesCompare k' k < 0 then (k', v') :: put k v rest
    else if bytesCompare k' k = 0 then (k, v) :: rest
    else (k, v) :: (k', v') :: rest

/-- The items are in strictly ascending key order. -/
def DB.Sorted (db : DB) : Prop :=
  db.items.Pairwise (fun x y => bytesCompare x.1 y.1 < 0)

/-- A transaction: the database it was opened on and the writes it buffers. -/
structure Txn where
  db : DB
  pending : List (Bytes × Bytes)

/-- The `txn.Set(key, value)` call: buffers the write, or reports an error. -/
def Txn.Set (txn : Txn) (key value : Bytes) : Except Error Txn :=
  match txn.db.setFault key value with
  | some c => .error (.badger c)
  | none => .ok { txn with pending := txn.pending ++ [(key, value)] }

/-- The `txn.Get(k)` call in a read-only transaction: the item stored under `k`
(represented by its key and value), `ErrKeyNotFound`, or another error. -/
def Txn.Get (txn : Txn) (k : Bytes) : Except Error (Bytes × Bytes) :=
  match txn.db.getFault k with
  | some c => .error (.badger c)
  | none =>
    match lookup k txn.db.items with
    | none => .error .ErrKeyNotFound
    | some v => .ok (k, v)

/-- The `item.ValueCopy` call. -/
def ValueCopy (db : DB) (item : Bytes × Bytes) : Except Error Bytes :=
  match db.valueFault item.1 with
  | some c => .error (.badger c)
  | none => .ok item.2

/-- The `db.Update(fn)` call: runs `fn` in a fresh read-write transaction; if `fn` fails
the transaction is discarded, otherwise it is committed, which applies the pending writes
in order, or fails and applies none. -/
def DB.Update (db : DB) (fn : Txn → Except Error Txn) : Option Error × DB :=
  match fn { db := db, pending := [] } with
  | .error e => (some e, db)
  | .ok txn =>
    match db.commitFault txn.pending with
    | some c => (some (.badger c), db)
    | none => (none, { db with items := txn.pending.foldl (fun acc w => put w.1 w.2 acc) db.items })

/-- The prefix `!badger!` of the keys the engine reserves for itself. -/
def badgerPrefix : Bytes := [33, 98, 97, 100, 103, 101, 114, 33]

/-- The key begins with `!badger!`. `txn.Set` and `txn.Get` take such a key like any
other; an iterator does not show the item stored under it. -/
def hidden (k : Bytes) : Bool :=
  badgerPrefix.isPrefixOf k

/-- The `it.Seek(k)` call where it returns: the iterator stands at the first item it
shows whose key is `>= k`; the iterator is the list of the items it shows from its
position on, and `it.Next()` moves to the tail. -/
def Seek (db : DB) (k : Bytes) : List (Bytes × Bytes) :=
  (db.items.filter (fun item => !hidden item.1)).dropWhile
    (fun item => decide (bytesCompare item.1 k < 0))

/-! ## storage/badger.go -/

structure Mutation where
  Prefix : Byte
  Key : Bytes
  Value : Bytes
  deriving DecidableEq, Repr

structure KVPair where
  Key : Bytes
  Value : Bytes
  deriving DecidableEq, Repr

abbrev KVRange := List KVPair

structure BadgerStore where
  db : DB

/-- The loop of the function passed to `db.Update` in `Mutate`. -/
def Mutate.loop : List Mutation → Txn → Except Error Txn
  | [], txn => .ok txn
  | m :: rest, txn =>
    let key := m.Prefix :: m.Key
    match txn.Set key m.Value with
    | .error err => .error err
    | .ok txn' => Mutate.loop rest txn'

/-- The method `BadgerStore.Mutate`: the returned error and the store afterwards. -/
def BadgerStore.Mutate (s : BadgerStore) (mutations : List Mutation) :
    Option Error × BadgerStore :=
  let r := s.db.Update (Mutate.loop mutations)
  (r.1, { db := r.2 })

/-- What a call that may halt produces: `panic` is a run-time panic of the code itself,
`exit` the engine ending the process on a fatal assertion. -/
inductive Call (α : Type) where
  | panic
  | exit
  | ret (a : α)
  deriving DecidableEq, Repr

/-- The loop of `GetRange`, from the iterator position `it` with `result` collected so
far. `key[1:]` on an empty key is an out-of-range slice, which halts. -/
def GetRange.loop (db : DB) (endKey : Bytes) :
    List (Bytes × Bytes) → KVRange → Call (Except Error KVRange)
  | [], result => .ret (.ok result)
  | item :: it, result =>
    let key := item.1
    if bytesCompare key endKey > 0 then .ret (.ok result)
    else
      match ValueCopy db item with
      | .error err => .ret (.error err)
      | .ok value =>
        match key with
        | [] => .panic
        | _ :: stripped =>
          if db.nextFault key then .exit
          else GetRange.loop db endKey it (result ++ [⟨stripped, value⟩])

/-- The method `BadgerStore.GetRange`; `stop` is the parameter `end` of the source. -/
def BadgerStore.GetRange (s : BadgerStore) (pfx : Byte) (start stop : Bytes) :
    Call (Except Error KVRange) :=
  let startKey := pfx :: start
  let endKey := pfx :: stop
  if s.db.seekFault startKey then .exit
  else GetRange.loop s.db endKey (Seek s.db startKey) []

/-- The function passed to `db.View` in `Get`: its error and the value it leaves in
`result.Value`. -/
def Get.view (db : DB) (pfx : Byte) (key : Bytes) : Option Error × Bytes :=
  let k := pfx :: key
  match Txn.Get { db := db, pending := [] } k with
  | .error err => (some err, [])
  | .ok item =>
    match ValueCopy db item with
    | .error err => (some err, [])
    | .ok value => (none, value)

/-- The method `BadgerStore.Get`. -/
def BadgerStore.Get (s : BadgerStore) (pfx : Byte) (key : Bytes) : Except Error KVPair :=
  match Get.view s.db pfx key with
  | (none, value) => .ok ⟨key, value⟩
  | (some .ErrKeyNotFound, value) => .ok ⟨key, value⟩
  | (some err, _) => .error err

/-! ## fsm/fsm.go -/

/-- The command envelope, `command` in the source: the type tag (field `Type`) and the
undecoded sub-command. -/
structure command where
  Typ : Nat
  Sub : Bytes
  deriving DecidableEq, Repr

structure insertSubCommand where
  Key : Bytes
  Value : Bytes
  deriving DecidableEq, Repr

/-- What `fsm.go` uses and other files or libraries define: the two instances of
`json.Unmarshal`, the command tag `insert`, the namespace bytes, the version key, the
decoder `encuint64.ToBytes` of a stored version, and the deserializer behind the store's
`Load`. -/
structure Env where
  unmarshalCommand : Bytes → Except Error command
  unmarshalInsert : Bytes → Except Error insertSubCommand
  insert : Nat
  HistoryCachePrefix : Byte
  VersionPrefix : Byte
  VersionKey : Bytes
  ToBytes : Bytes → Nat
  decodeDump : Bytes → Except Error (List (Bytes × Bytes))

/-- The value `Apply` returns: `generic` is a `*fsmGenericResponse`, `add` a
`*fsmAddResponse`; a nil `error` field is `none`. -/
inductive Response where
  | generic (error : Option Error)
  | add (commitment : Bytes) (error : Option Error)
  deriving DecidableEq, Repr

/-- Operations on the restore lock and on the store, as a call performs them. -/
inductive Event where
  | Lock
  | Unlock
  | RLock
  | RUnlock
  | Load
  | Get
  | NewSnapshot
  deriving DecidableEq, Repr

/-- The state of an `FSM`: the store and the 64-bit version counter. The restore lock
`restoreMu` has no state of its own here; the calls that use it report their lock
operations as events. -/
structure FSM where
  store : BadgerStore
  version : Nat

/-- The call `NewFSM`, on a store that has been opened. -/
def NewFSM (store : BadgerStore) : FSM :=
  { store := store, version := 0 }

/-- What `Apply` produces: it halts in state `fsm`, or returns `resp` and leaves the
machine in state `fsm`. -/
inductive ApplyOutcome where
  | panic (fsm : FSM)
  | ret (resp : Response) (fsm : FSM)

/-- The method `FSM.applyAdd`: the error of `Mutate` is dropped. -/
def FSM.applyAdd (env : Env) (fsm : FSM) (key value : Bytes) : Response × FSM :=
  let r := fsm.store.Mutate [⟨env.HistoryCachePrefix, key, value⟩]
  (.add value none, { fsm with store := r.2 })

/-- The method `FSM.Apply` on the bytes `data` of a log entry. -/
def FSM.Apply (env : Env) (fsm : FSM) (data : Bytes) : ApplyOutcome :=
  match env.unmarshalCommand data with
  | .error _ => .panic fsm
  | .ok cmd =>
    if cmd.Typ = env.insert then
      match env.unmarshalInsert cmd.Sub with
      | .error err => .ret (.generic (some err)) fsm
      | .ok sub =>
        let r := fsm.applyAdd env sub.Key sub.Value
        .ret r.1 r.2
    else .ret (.generic (some (.unknownCommand cmd.Typ))) fsm

/-- The snapshot handle, `fsmSnapshot` in the source. -/
structure fsmSnapshot where
  store : BadgerStore

/-- The method `FSM.Snapshot`: the handle, the error, and the events in program order
(the deferred `Unlock` runs as the call returns). -/
def FSM.Snapshot (fsm : FSM) : (fsmSnapshot × Option Error) × List Event :=
  (({ store := fsm.store }, none), [.Lock, .NewSnapshot, .Unlock])

/-- Modelled from the spec: the store method `Load`, which `FSM.Restore` calls and
`badger.go` does not define. If the stream deserializes, all store content is replaced
by that of the stream; otherwise the error is returned and the content is kept. -/
def BadgerStore.Load (env : Env) (s : BadgerStore) (rc : Bytes) : Option Error × BadgerStore :=
  match env.decodeDump rc with
  | .error err => (some err, s)
  | .ok pairs =>
    (none, { db := { s.db with items := pairs.foldl (fun acc w => put w.1 w.2 acc) [] } })

/-- What `Restore` produces. -/
structure RestoreResult where
  err : Option Error
  fsm : FSM
  events : List Event

/-- The method `FSM.Restore` on the snapshot stream `rc`. The version counter is a
`uint64`, so the addition wraps. -/
def FSM.Restore (env : Env) (fsm : FSM) (rc : Bytes) : RestoreResult :=
  match fsm.store.Load env rc with
  | (some err, store) => { err := some err, fsm := { fsm with store := store }, events := [.Load] }
  | (none, store) =>
    match store.Get env.VersionPrefix env.VersionKey with
    | .error err =>
      { err := some err, fsm := { fsm with store := store }, events := [.Load, .Get] }
    | .ok kv =>
      { err := none,
        fsm := { store := store, version := (env.ToBytes kv.Value + 1) % 2 ^ 64 },
        events := [.Load, .Get] }

/-- The bytes `data` are a well-formed `insert(k, v)` entry: the envelope decodes, its
type is `insert`, and its payload decodes to the key `k` and the value `v`. -/
def Env.isInsert (env : Env) (data k v : Bytes) : Prop :=
  ∃ cmd, env.unmarshalCommand data = .ok cmd ∧ cmd.Typ = env.insert ∧
    env.unmarshalInsert cmd.Sub = .ok ⟨k, v⟩

/-- A call the replication engine makes on the machine. -/
inductive Op where
  | apply (data : Bytes)
  | restore (rc : Bytes)
  deriving DecidableEq, Repr

/-- One call: the machine afterwards, `none` when the call halts the process. -/
def FSM.exec (env : Env) (fsm : FSM) : Op → Option FSM
  | .apply data =>
    match fsm.Apply env data with
    | .panic _ => none
    | .ret _ fsm' => some fsm'
  | .restore rc => some (fsm.Restore env rc).fsm

/-- A sequence of calls, in order. -/
def FSM.run (env : Env) : List Op → FSM → Option FSM
  | [], fsm => some fsm
  | op :: ops, fsm => (fsm.exec env op).bind (FSM.run env ops)

/-- No `Restore` of the run returns without error. -/
def FSM.noRestoreSucceeds (env : Env) : List Op → FSM → Bool
  | [], _ => true
  | .apply data :: ops, fsm =>
    match fsm.exec env (.apply data) with
    | none => true
    | some fsm' => FSM.noRestoreSucceeds env ops fsm'
  | .restore rc :: ops, fsm =>
    (fsm.Restore env rc).err.isSome && FSM.noRestoreSucceeds env ops (fsm.Restore env rc).fsm

/-! ## The restore lock -/

/-- The state of a `sync.RWMutex`: whether a writer holds it, and how many readers. -/
structure RWMutex where
  writer : Bool
  readers : Nat
  deriving DecidableEq, Repr

/-- One event of a thread against the lock: `none` when the thread has to wait. Events
that are not lock operations are always enabled and leave the lock as it is. -/
def RWMutex.step (mu : RWMutex) : Event → Option RWMutex
  | .Lock => if mu.writer = false ∧ mu.readers = 0 then some { mu with writer := true } else none
  | .Unlock => some { mu with writer := false }
  | .RLock => if mu.writer = false then some { mu with readers := mu.readers + 1 } else none
  | .RUnlock => some { mu with readers := mu.readers - 1 }
  | _ => some mu

/-- Two threads sharing the lock: the events each has still to perform. -/
structure Threads where
  mu : RWMutex
  snapshot : List Event
  restore : List Event
  deriving DecidableEq, Repr

/-- The scheduler lets one thread perform its next event (`true`: the Snapshot thread,
`false`: the Restore thread); `none` when that thread is finished or has to wait. -/
def Threads.step (t : Threads) : Bool → Option Threads
  | true =>
    match t.snapshot with
    | [] => none
    | e :: rest => (t.mu.step e).map (fun mu => { t with mu := mu, snapshot := rest })
  | false =>
    match t.restore with
    | [] => none
    | e :: rest => (t.mu.step e).map (fun mu => { t with mu := mu, restore := rest })

/-- Running a schedule. -/
def Threads.run : List Bool → Threads → Option Threads
  | [], t => some t
  | b :: bs, t => (t.step b).bind (Threads.run bs)

/-! ## Concrete instances used in the examples -/

/-- A store with the given items and no failing primitive. -/
def healthy (items : List (Bytes × Bytes)) : BadgerStore :=
  { db := { items := items, getFault := fun _ => none, valueFault := fun _ => none,
            setFault := fun _ _ => none, commitFault := fun _ => none,
            seekFault := fun _ => false, nextFault := fun _ => false } }

/-- A store without items whose engine rejects every `txn.Set` with error code `c`. -/
def rejecting (c : Nat) : BadgerStore :=
  { db := { items := [], getFault := fun _ => none, valueFault := fun _ => none,
            setFault := fun _ _ => some c, commitFault := fun _ => none,
            seekFault := fun _ => false, nextFault := fun _ => false } }

/-- A store with the given items whose engine rejects every `txn.Set` on the physical key
`k`, with error code `c`, and accepts the others. -/
def rejectingKey (items : List (Bytes × Bytes)) (k : Bytes) (c : Nat) : BadgerStore :=
  { db := { items := items, getFault := fun _ => none, valueFault := fun _ => none,
            setFault := fun key _ => if key = k then some c else none,
            commitFault := fun _ => none,
            seekFault := fun _ => false, nextFault := fun _ => false } }

/-- A store with the given items on which every `item.ValueCopy` fails with code `c`. -/
def unreadable (items : List (Bytes × Bytes)) (c : Nat) : BadgerStore :=
  { db := { items := items, getFault := fun _ => none, valueFault := fun _ => some c,
            setFault := fun _ _ => none, commitFault := fun _ => none,
            seekFault := fun _ => false, nextFault := fun _ => false } }

/-- A store with the given items on which every `it.Seek` ends the process. -/
def exiting (items : List (Bytes × Bytes)) : BadgerStore :=
  { db := { items := items, getFault := fun _ => none, valueFault := fun _ => none,
            setFault := fun _ _ => none, commitFault := fun _ => none,
            seekFault := fun _ => true, nextFault := fun _ => false } }

/-- Big-endian value of a byte string. -/
def bigEndian (b : Bytes) : Nat :=
  b.foldl (fun acc x => acc * 256 + x.val) 0

/-- A stand-in dump format: records of a namespace byte, one key byte and eight bytes
of value. -/
def toyDump : Bytes → Except Error (List (Bytes × Bytes))
  | [] => .ok []
  | p :: k :: v0 :: v1 :: v2 :: v3 :: v4 :: v5 :: v6 :: v7 :: rest =>
    match toyDump rest with
    | .error err => .error err
    | .ok items => .ok (([p, k], [v0, v1, v2, v3, v4, v5, v6, v7]) :: items)
  | _ => .error (.load 0)

/-- A stand-in environment: an envelope is its tag byte followed by the sub-command; an
insert sub-command is the length of the key, the key, and the value. -/
def toyEnv : Env where
  unmarshalCommand
    | [] => .error (.unmarshal 0)
    | t :: sub => .ok ⟨t.val, sub⟩
  unmarshalInsert
    | [] => .error (.unmarshal 1)
    | n :: body =>
      if n.val ≤ body.length then .ok ⟨body.take n.val, body.drop n.val⟩
      else .error (.unmarshal 2)
  insert := 0
  HistoryCachePrefix := 0
  VersionPrefix := 1
  VersionKey := [118]
  ToBytes := bigEndian
  decodeDump := toyDump

/-! ## What the specification says of `GetRange` -/

/-- In the words of the specification: the physical key `k` belongs to namespace `p` and,
with the namespace byte stripped, lies in `[start, stop]` in bytewise order. -/
def inRange (p : Byte) (start stop : Bytes) (k : Bytes) : Bool :=
  match k with
  | [] => false
  | q :: r => decide (q = p) && decide (bytesCompare start r ≤ 0) && decide (bytesCompare r stop ≤ 0)

/-- An item as it is handed to the caller: without its namespace byte. -/
def strip (item : Bytes × Bytes) : KVPair :=
  ⟨item.1.tail, item.2⟩

/-- The items a scan of namespace `p` over `[start, stop]` has to read: those of the
namespace with key in the range, less the ones an iterator does not show. -/
def scanned (db : DB) (p : Byte) (start stop : Bytes) : List (Bytes × Bytes) :=
  db.items.filter (fun item => !hidden item.1 && inRange p start stop item.1)

/-- In the words of the specification: the entries of namespace `p` with key in
`[start, stop]`, in the order of the store, namespace byte stripped; less the ones an
iterator does not show. -/
def rangeOf (db : DB) (p : Byte) (start stop : Bytes) : KVRange :=
  (scanned db p start stop).map strip

/-- The error code of the first value read of the scan that fails, if one does. -/
def firstValueFault (db : DB) (p : Byte) (start stop : Bytes) : Option Nat :=
  (scanned db p start stop).findSome? (fun item => db.valueFault item.1)

/-! ## What the specification says of `Mutate` -/

/-- The physical write a mutation stands for. -/
def Mutation.write (m : Mutation) : Bytes × Bytes :=
  (m.Prefix :: m.Key, m.Value)

/-- In the words of the specification: the value the batch writes last under the
physical key `K`, if it writes `K` at all. -/
def lastWrite (batch : List Mutation) (K : Bytes) : Option Bytes :=
  batch.foldl (fun acc m => if m.Prefix :: m.Key = K then some m.Value else acc) none

/-! ## Lemmas on the byte order -/

theorem bytesCompare_self (a : Bytes) : bytesCompare a a = 0 := by
  induction a with
  | nil => rfl
  | cons x xs ih => simp [bytesCompare, ih]

theorem bytesCompare_cons_lt {x y : Byte} (h : x < y) (xs ys : Bytes) :
    bytesCompare (x :: xs) (y :: ys) = -1 := by
  simp [bytesCompare, h]

theorem bytesCompare_cons_gt {x y : Byte} (h : y < x) (xs ys : Bytes) :
    bytesCompare (x :: xs) (y :: ys) = 1 := by
  simp [bytesCompare, h, lt_asymm h]

theorem bytesCompare_cons (p : Byte) (a b : Bytes) :
    bytesCompare (p :: a) (p :: b) = bytesCompare a b := by
  simp [bytesCompare]

theorem bytesCompare_eq_zero {a b : Bytes} : bytesCompare a b = 0 ↔ a = b := by
  constructor
  · intro h
    induction a generalizing b with
    | nil => cases b with
      | nil => rfl
      | cons y ys => simp [bytesCompare] at h
    | cons x xs ih => cases b with
      | nil => simp [bytesCompare] at h
      | cons y ys =>
        rcases lt_trichotomy x y with hxy | hxy | hxy
        · rw [bytesCompare_cons_lt hxy] at h; omega
        · subst hxy
          rw [bytesCompare_cons] at h
          rw [ih h]
        · rw [bytesCompare_cons_gt hxy] at h; omega
  · rintro rfl
    exact bytesCompare_self a

theorem bytesCompare_neg (a b : Bytes) : bytesCompare b a = - bytesCompare a b := by
  induction a generalizing b with
  | nil => cases b <;> simp [bytesCompare]
  | cons x xs ih => cases b with
    | nil => simp [bytesCompare]
    | cons y ys =>
      rcases lt_trichotomy x y with hxy | hxy | hxy
      · rw [bytesCompare_cons_lt hxy, bytesCompare_cons_gt hxy]; rfl
      · subst hxy
        rw [bytesCompare_cons, bytesCompare_cons]; exact ih ys
      · rw [bytesCompare_cons_gt hxy, bytesCompare_cons_lt hxy]

theorem bytesCompare_lt_trans {a b c : Bytes}
    (h1 : bytesCompare a b < 0) (h2 : bytesCompare b c < 0) : bytesCompare a c < 0 := by
  induction a generalizing b c with
  | nil => cases c with
    | nil => cases b <;> simp [bytesCompare] at h1 h2
    | cons z zs => simp [bytesCompare]
  | cons x xs ih => cases b with
    | nil => simp [bytesCompare] at h1
    | cons y ys => cases c with
      | nil => simp [bytesCompare] at h2
      | cons z zs =>
        rcases lt_trichotomy x y with hxy | hxy | hxy
        · rcases lt_trichotomy y z with hyz | hyz | hyz
          · rw [bytesCompare_cons_lt (lt_trans hxy hyz)]; omega
          · subst hyz; rw [bytesCompare_cons_lt hxy]; omega
          · rw [bytesCompare_cons_gt hyz] at h2; omega
        · subst hxy
          rcases lt_trichotomy x z with hyz | hyz | hyz
          · rw [bytesCompare_cons_lt hyz]; omega
          · subst hyz
            rw [bytesCompare_cons] at h1 h2 ⊢
            exact ih h1 h2
          · rw [bytesCompare_cons_gt hyz] at h2; omega
        · rw [bytesCompare_cons_gt hxy] at h1; omega

theorem bytesCompare_le_iff {a b : Bytes} :
    bytesCompare a b ≤ 0 ↔ bytesCompare a b < 0 ∨ a = b := by
  rw [← bytesCompare_eq_zero]; omega

theorem bytesCompare_le_lt_trans {a b c : Bytes}
    (h1 : bytesCompare a b ≤ 0) (h2 : bytesCompare b c < 0) : bytesCompare a c < 0 := by
  rcases bytesCompare_le_iff.mp h1 with h | h
  · exact bytesCompare_lt_trans h h2
  · subst h; exact h2

theorem bytesCompare_lt_le_trans {a b c : Bytes}
    (h1 : bytesCompare a b < 0) (h2 : bytesCompare b c ≤ 0) : bytesCompare a c < 0 := by
  rcases bytesCompare_le_iff.mp h2 with h | h
  · exact bytesCompare_lt_trans h1 h
  · subst h; exact h1

/-- A key between `p :: s` and `p :: e` starts with `p`, and its rest lies between `s`
and `e`. -/
theorem between_cons {p : Byte} {s e k : Bytes}
    (h1 : ¬ bytesCompare k (p :: s) < 0) (h2 : ¬ bytesCompare k (p :: e) > 0) :
    ∃ r, k = p :: r ∧ bytesCompare s r ≤ 0 ∧ bytesCompare r e ≤ 0 := by
  cases k with
  | nil => simp [bytesCompare] at h1
  | cons q r =>
    rcases lt_trichotomy q p with hq | hq | hq
    · rw [bytesCompare_cons_lt hq] at h1; omega
    · subst hq
      rw [bytesCompare_cons] at h1 h2
      refine ⟨r, rfl, ?_, by omega⟩
      rw [bytesCompare_neg]; omega
    · rw [bytesCompare_cons_gt hq] at h2; omega


/-! ## Lemmas on the range scan -/

theorem inRange_iff {p : Byte} {s e k : Bytes} :
    inRange p s e k = true ↔ ∃ r, k = p :: r ∧ bytesCompare s r ≤ 0 ∧ bytesCompare r e ≤ 0 := by
  cases k with
  | nil => simp [inRange]
  | cons q r =>
    simp only [inRange, Bool.and_eq_true, decide_eq_true_eq, List.cons.injEq]
    constructor
    · rintro ⟨⟨h1, h2⟩, h3⟩
      exact ⟨r, ⟨h1, rfl⟩, h2, h3⟩
    · rintro ⟨r', ⟨h1, rfl⟩, h2, h3⟩
      exact ⟨⟨h1, h2⟩, h3⟩

theorem inRange_iff_between {p : Byte} {s e k : Bytes} :
    inRange p s e k = true ↔ ¬ bytesCompare k (p :: s) < 0 ∧ ¬ bytesCompare k (p :: e) > 0 := by
  rw [inRange_iff]
  constructor
  · rintro ⟨r, rfl, h1, h2⟩
    rw [bytesCompare_cons, bytesCompare_cons, bytesCompare_neg]
    constructor <;> omega
  · rintro ⟨h1, h2⟩
    exact between_cons h1 h2

theorem seek_eq_filter (k : Bytes) (l : List (Bytes × Bytes))
    (hl : l.Pairwise (fun x y => bytesCompare x.1 y.1 < 0)) :
    l.dropWhile (fun item => decide (bytesCompare item.1 k < 0))
      = l.filter (fun item => !decide (bytesCompare item.1 k < 0)) := by
  induction l with
  | nil => rfl
  | cons x l ih =>
    rw [List.pairwise_cons] at hl
    by_cases hx : bytesCompare x.1 k < 0
    · simp only [List.dropWhile_cons, List.filter_cons, hx, decide_True, if_true, Bool.not_true]
      simpa using ih hl.2
    · have hall : ∀ y ∈ l, (!decide (bytesCompare y.1 k < 0)) = true := by
        intro y hy
        have hxy := hl.1 y hy
        simp only [Bool.not_eq_true', decide_eq_false_iff_not]
        intro hyk
        exact hx (bytesCompare_lt_trans hxy hyk)
      simp only [List.dropWhile_cons, List.filter_cons, hx, decide_False, Bool.not_false, if_true]
      simp [List.filter_eq_self.mpr hall]

theorem loop_spec (db : DB) (p : Byte) (s e : Bytes) :
    ∀ (l : List (Bytes × Bytes)) (acc : KVRange),
      l.Pairwise (fun x y => bytesCompare x.1 y.1 < 0) →
      (∀ x ∈ l, ¬ bytesCompare x.1 (p :: s) < 0) →
      (GetRange.loop db (p :: e) l acc = .exit
          ∧ ∃ x ∈ l, inRange p s e x.1 = true ∧ db.nextFault x.1 = true)
      ∨ (∃ c, (l.filter (fun item => inRange p s e item.1)).findSome?
                (fun item => db.valueFault item.1) = some c
          ∧ GetRange.loop db (p :: e) l acc = .ret (.error (.badger c)))
      ∨ ((l.filter (fun item => inRange p s e item.1)).findSome?
                (fun item => db.valueFault item.1) = none
          ∧ GetRange.loop db (p :: e) l acc
              = .ret (.ok (acc ++ (l.filter (fun item => inRange p s e item.1)).map strip))) := by
  intro l
  induction l with
  | nil => intro acc _ _; right; right; simp [GetRange.loop]
  | cons x l ih =>
    intro acc hl hlo
    rw [List.pairwise_cons] at hl
    have hx := hlo x (List.mem_cons_self _ _)
    by_cases hgt : bytesCompare x.1 (p :: e) > 0
    · right; right
      have hxn : inRange p s e x.1 = false := by
        rw [Bool.eq_false_iff]; intro h
        exact (inRange_iff_between.mp h).2 hgt
      have hrest : ∀ y ∈ l, ¬ inRange p s e y.1 = true := by
        intro y hy h
        have h2 := (inRange_iff_between.mp h).2
        have hxy := hl.1 y hy
        have : bytesCompare x.1 (p :: e) < 0 := bytesCompare_lt_le_trans hxy (by omega)
        omega
      have hnil : l.filter (fun item => inRange p s e item.1) = [] := by
        rw [List.filter_eq_nil_iff]; exact hrest
      simp [GetRange.loop, hgt, List.filter_cons, hxn, hnil]
    · obtain ⟨r, hr, h1, h2⟩ := between_cons hx hgt
      have hxin : inRange p s e x.1 = true := inRange_iff.mpr ⟨r, hr, h1, h2⟩
      cases hf : db.valueFault x.1 with
      | some c =>
        right; left
        refine ⟨c, ?_, ?_⟩
        · simp [List.filter_cons, hxin, List.findSome?_cons, hf]
        · simp [GetRange.loop, hgt, ValueCopy, hf]
      | none =>
        by_cases hn : db.nextFault x.1 = true
        · left
          refine ⟨?_, x, List.mem_cons_self _ _, hxin, hn⟩
          rcases x with ⟨xk, xv⟩
          simp only at hr hf hgt hn
          subst hr
          simp [GetRange.loop, hgt, ValueCopy, hf, hn]
        · have hstep : GetRange.loop db (p :: e) (x :: l) acc
              = GetRange.loop db (p :: e) l (acc ++ [⟨r, x.2⟩]) := by
            rcases x with ⟨xk, xv⟩
            simp only at hr hf hgt hn
            subst hr
            simp [GetRange.loop, hgt, ValueCopy, hf, hn]
          have hfind : ((x :: l).filter (fun item => inRange p s e item.1)).findSome?
                (fun item => db.valueFault item.1)
              = (l.filter (fun item => inRange p s e item.1)).findSome?
                (fun item => db.valueFault item.1) := by
            simp [List.filter_cons, hxin, List.findSome?_cons, hf]
          rcases ih (acc ++ [⟨r, x.2⟩]) hl.2 (fun y hy => hlo y (List.mem_cons_of_mem _ hy)) with
            ⟨hloop, y, hy, hyin, hyn⟩ | ⟨c, hc, hloop⟩ | ⟨hnone, hloop⟩
          · left
            exact ⟨by rw [hstep, hloop], y, List.mem_cons_of_mem _ hy, hyin, hyn⟩
          · right; left
            exact ⟨c, by rw [hfind, hc], by rw [hstep, hloop]⟩
          · right; right
            refine ⟨by rw [hfind, hnone], ?_⟩
            rw [hstep, hloop]
            have : strip x = ⟨r, x.2⟩ := by simp [strip, hr]
            simp [List.filter_cons, hxin, this]

theorem scanned_mem (db : DB) (p : Byte) (s e : Bytes) (x : Bytes × Bytes) :
    x ∈ scanned db p s e ↔ x ∈ db.items ∧ hidden x.1 = false ∧ inRange p s e x.1 = true := by
  simp [scanned, List.mem_filter]

theorem rangeOf_mem (db : DB) (p : Byte) (s e : Bytes) (k v : Bytes) :
    (⟨k, v⟩ : KVPair) ∈ rangeOf db p s e
      ↔ (p :: k, v) ∈ db.items ∧ hidden (p :: k) = false
          ∧ bytesCompare s k ≤ 0 ∧ bytesCompare k e ≤ 0 := by
  simp only [rangeOf, List.mem_map, scanned_mem]
  constructor
  · rintro ⟨⟨ik, iv⟩, ⟨hmem, hvis, hin⟩, hstrip⟩
    obtain ⟨r, hr, h1, h2⟩ := inRange_iff.mp hin
    simp only at hr hvis
    subst hr
    simp only [strip, List.tail_cons, KVPair.mk.injEq] at hstrip
    obtain ⟨rfl, rfl⟩ := hstrip
    exact ⟨hmem, hvis, h1, h2⟩
  · rintro ⟨hmem, hvis, h1, h2⟩
    exact ⟨(p :: k, v), ⟨hmem, hvis, inRange_iff.mpr ⟨k, rfl, h1, h2⟩⟩, by simp [strip]⟩

theorem rangeOf_sorted (db : DB) (p : Byte) (s e : Bytes) (hs : db.Sorted) :
    (rangeOf db p s e).Pairwise (fun a b => bytesCompare a.Key b.Key < 0) := by
  unfold rangeOf
  rw [List.pairwise_map]
  have h : (scanned db p s e).Pairwise (fun x y => bytesCompare x.1 y.1 < 0) :=
    List.Pairwise.filter _ hs
  rw [List.pairwise_iff_forall_sublist] at h ⊢
  intro a b hab
  have hlt := h hab
  have ha := ((scanned_mem db p s e a).mp (hab.subset (List.mem_cons_self _ _))).2.2
  have hb := ((scanned_mem db p s e b).mp
    (hab.subset (List.mem_cons_of_mem _ (List.mem_singleton_self _)))).2.2
  obtain ⟨ra, hra, -, -⟩ := inRange_iff.mp ha
  obtain ⟨rb, hrb, -, -⟩ := inRange_iff.mp hb
  rw [hra, hrb, bytesCompare_cons] at hlt
  simpa [strip, hra, hrb] using hlt

theorem pairwise_key_nodup (r : KVRange)
    (h : r.Pairwise (fun a b => bytesCompare a.Key b.Key < 0)) : r.Nodup := by
  refine List.Pairwise.imp ?_ h
  intro a b hab heq
  subst heq
  rw [bytesCompare_self] at hab
  omega

theorem Seek_scanned (db : DB) (p : Byte) (start stop : Bytes) (hs : db.Sorted) :
    (Seek db (p :: start)).filter (fun item => inRange p start stop item.1)
      = scanned db p start stop := by
  have hv : (db.items.filter (fun item => !hidden item.1)).Pairwise
      (fun x y => bytesCompare x.1 y.1 < 0) := List.Pairwise.filter _ hs
  unfold Seek scanned
  rw [seek_eq_filter (p :: start) _ hv, List.filter_filter, List.filter_filter]
  apply List.filter_congr
  intro x _
  by_cases hx : inRange p start stop x.1 = true
  · have := (inRange_iff_between.mp hx).1
    simp [hx, this, Bool.and_comm]
  · simp [hx]

theorem GetRange_spec (s : BadgerStore) (p : Byte) (start stop : Bytes) (hs : s.db.Sorted) :
    (s.GetRange p start stop = .exit
        ∧ (s.db.seekFault (p :: start) = true
            ∨ ∃ x ∈ scanned s.db p start stop, s.db.nextFault x.1 = true))
    ∨ (∃ c, firstValueFault s.db p start stop = some c
        ∧ s.GetRange p start stop = .ret (.error (.badger c)))
    ∨ (firstValueFault s.db p start stop = none
        ∧ s.GetRange p start stop = .ret (.ok (rangeOf s.db p start stop))) := by
  by_cases hseek : s.db.seekFault (p :: start) = true
  · left
    exact ⟨by simp [BadgerStore.GetRange, hseek], Or.inl hseek⟩
  · have hv : (s.db.items.filter (fun item => !hidden item.1)).Pairwise
        (fun x y => bytesCompare x.1 y.1 < 0) := List.Pairwise.filter _ hs
    have hsub : (Seek s.db (p :: start)).Sublist
        (s.db.items.filter (fun item => !hidden item.1)) := List.dropWhile_sublist _
    have hlo : ∀ x ∈ Seek s.db (p :: start), ¬ bytesCompare x.1 (p :: start) < 0 := by
      intro x hx
      unfold Seek at hx
      rw [seek_eq_filter (p :: start) _ hv] at hx
      simpa using (List.mem_filter.mp hx).2
    have hsc := Seek_scanned s.db p start stop hs
    have hget : s.GetRange p start stop
        = GetRange.loop s.db (p :: stop) (Seek s.db (p :: start)) [] := by
      simp [BadgerStore.GetRange, hseek]
    rcases loop_spec s.db p start stop (Seek s.db (p :: start)) [] (hv.sublist hsub) hlo with
      ⟨hloop, x, hx, hin, hn⟩ | ⟨c, hc, hloop⟩ | ⟨hnone, hloop⟩
    · left
      refine ⟨by rw [hget, hloop], Or.inr ⟨x, ?_, hn⟩⟩
      rw [← hsc]
      exact List.mem_filter.mpr ⟨hx, hin⟩
    · right; left
      rw [hsc] at hc
      exact ⟨c, hc, by rw [hget, hloop]⟩
    · right; right
      rw [hsc] at hnone hloop
      exact ⟨hnone, by rw [hget, hloop]; simp [rangeOf]⟩

theorem firstValueFault_none (db : DB) (p : Byte) (start stop : Bytes) :
    firstValueFault db p start stop = none
      ↔ ∀ x ∈ scanned db p start stop, db.valueFault x.1 = none := by
  simp [firstValueFault, List.findSome?_eq_none_iff]

/-! ## Lemmas on `Mutate` -/


theorem lookup_put_self (k v : Bytes) (l : List (Bytes × Bytes)) :
    lookup k (put k v l) = some v := by
  induction l with
  | nil => simp [put, lookup]
  | cons x l ih =>
    rcases x with ⟨k', v'⟩
    by_cases h1 : bytesCompare k' k < 0
    · have hne : k' ≠ k := fun h => by
        rw [h, bytesCompare_self] at h1; omega
      simp [put, h1, lookup, hne, ih]
    · by_cases h2 : bytesCompare k' k = 0
      · simp [put, h1, h2, lookup]
      · simp [put, h1, h2, lookup]

theorem lookup_put_ne {k k' : Bytes} (h : k' ≠ k) (v : Bytes) (l : List (Bytes × Bytes)) :
    lookup k' (put k v l) = lookup k' l := by
  induction l with
  | nil => simp [put, lookup, Ne.symm h]
  | cons x l ih =>
    rcases x with ⟨k'', v''⟩
    by_cases h1 : bytesCompare k'' k < 0
    · by_cases h3 : k'' = k'
      · subst h3
        simp [put, h1, lookup]
      · simp [put, h1, lookup, h3, ih]
    · by_cases h2 : bytesCompare k'' k = 0
      · have hk : k'' = k := bytesCompare_eq_zero.mp h2
        subst hk
        simp [put, lookup, bytesCompare_self, Ne.symm h]
      · simp [put, h1, h2, lookup, Ne.symm h]


theorem lookup_foldl_put (K : Bytes) (batch : List Mutation) :
    ∀ (items : List (Bytes × Bytes)) (acc : Option Bytes),
      lookup K items = acc →
      lookup K ((batch.map Mutation.write).foldl (fun a w => put w.1 w.2 a) items)
        = batch.foldl (fun a m => if m.Prefix :: m.Key = K then some m.Value else a) acc := by
  induction batch with
  | nil => intro items acc h; simpa using h
  | cons m rest ih =>
    intro items acc h
    simp only [List.map_cons, List.foldl_cons]
    apply ih
    by_cases hk : m.Prefix :: m.Key = K
    · simp only [Mutation.write, hk, if_true]
      exact lookup_put_self K m.Value items
    · simp only [Mutation.write, hk, if_false]
      rw [lookup_put_ne (Ne.symm hk), h]

theorem Mutate_loop_ok : ∀ (batch : List Mutation) (txn txn' : Txn),
    Mutate.loop batch txn = .ok txn' →
    txn'.db = txn.db ∧ txn'.pending = txn.pending ++ batch.map Mutation.write := by
  intro batch
  induction batch with
  | nil =>
    intro txn txn' h
    simp only [Mutate.loop, Except.ok.injEq] at h
    subst h; simp
  | cons m rest ih =>
    intro txn txn' h
    simp only [Mutate.loop, Txn.Set] at h
    cases hf : txn.db.setFault (m.Prefix :: m.Key) m.Value with
    | some c => simp [hf] at h
    | none =>
      simp only [hf] at h
      obtain ⟨h1, h2⟩ := ih _ _ h
      simp only at h1 h2
      exact ⟨h1, by simp [h2, Mutation.write]⟩

theorem lastWrite_foldl_none (K : Bytes) (batch : List Mutation) (o : Option Bytes) :
    batch.foldl (fun a m => if m.Prefix :: m.Key = K then some m.Value else a) o
      = match lastWrite batch K with
        | some v => some v
        | none => o := by
  unfold lastWrite
  induction batch generalizing o with
  | nil => rfl
  | cons m rest ih =>
    simp only [List.foldl_cons]
    rw [ih, ih (if m.Prefix :: m.Key = K then some m.Value else none)]
    cases List.foldl (fun acc m => if m.Prefix :: m.Key = K then some m.Value else acc)
      none rest <;> by_cases hk : m.Prefix :: m.Key = K <;> simp [hk]

theorem Mutate_ok_lookup (s : BadgerStore) (batch : List Mutation)
    (h : (s.Mutate batch).1 = none) (K : Bytes) :
    lookup K (s.Mutate batch).2.db.items
      = match lastWrite batch K with
        | some v => some v
        | none => lookup K s.db.items := by
  revert h
  unfold BadgerStore.Mutate DB.Update
  cases hl : Mutate.loop batch { db := s.db, pending := [] } with
  | error e => simp
  | ok txn =>
    obtain ⟨-, hp⟩ := Mutate_loop_ok _ _ _ hl
    simp only [List.nil_append] at hp
    cases hc : s.db.commitFault txn.pending with
    | some c => simp [hc]
    | none =>
      intro _
      simp only [hc]
      rw [hp, lookup_foldl_put K batch s.db.items (lookup K s.db.items) rfl]
      exact lastWrite_foldl_none K batch _

theorem Mutate_err_unchanged (s : BadgerStore) (batch : List Mutation)
    (h : (s.Mutate batch).1 ≠ none) : (s.Mutate batch).2 = s := by
  revert h
  unfold BadgerStore.Mutate DB.Update
  cases hl : Mutate.loop batch { db := s.db, pending := [] } with
  | error e => simp
  | ok txn => cases hc : s.db.commitFault txn.pending <;> simp [hc]

/-! ## Lemmas on `Get` and `Apply` -/

theorem Get_of_lookup (s : BadgerStore) (p : Byte) (k : Bytes)
    (hg : s.db.getFault (p :: k) = none) (hv : s.db.valueFault (p :: k) = none) :
    s.Get p k = .ok ⟨k, (lookup (p :: k) s.db.items).getD []⟩ := by
  unfold BadgerStore.Get Get.view Txn.Get ValueCopy
  simp only [hg]
  cases hl : lookup (p :: k) s.db.items with
  | none => simp
  | some v => simp [hv]

theorem Mutate_faults (s : BadgerStore) (batch : List Mutation) :
    (s.Mutate batch).2.db.getFault = s.db.getFault
    ∧ (s.Mutate batch).2.db.valueFault = s.db.valueFault
    ∧ (s.Mutate batch).2.db.setFault = s.db.setFault
    ∧ (s.Mutate batch).2.db.commitFault = s.db.commitFault := by
  unfold BadgerStore.Mutate DB.Update
  cases Mutate.loop batch { db := s.db, pending := [] } with
  | error e => simp
  | ok txn => cases hc : s.db.commitFault txn.pending <;> simp [hc]

theorem Apply_insert (env : Env) (fsm : FSM) (data k v : Bytes) (h : env.isInsert data k v) :
    fsm.Apply env data = .ret (.add v none)
      { fsm with store := (fsm.store.Mutate [⟨env.HistoryCachePrefix, k, v⟩]).2 } := by
  obtain ⟨cmd, h1, h2, h3⟩ := h
  simp [FSM.Apply, h1, h2, h3, FSM.applyAdd]

theorem insert_visible (env : Env) (s : BadgerStore) (k v : Bytes)
    (hmut : (s.Mutate [⟨env.HistoryCachePrefix, k, v⟩]).1 = none)
    (hg : s.db.getFault (env.HistoryCachePrefix :: k) = none)
    (hv : s.db.valueFault (env.HistoryCachePrefix :: k) = none) :
    (s.Mutate [⟨env.HistoryCachePrefix, k, v⟩]).2.Get env.HistoryCachePrefix k = .ok ⟨k, v⟩ := by
  obtain ⟨f1, f2, -, -⟩ := Mutate_faults s [⟨env.HistoryCachePrefix, k, v⟩]
  rw [Get_of_lookup _ _ _ (by rw [f1]; exact hg) (by rw [f2]; exact hv)]
  rw [Mutate_ok_lookup s _ hmut]
  simp [lastWrite]


/-! ## The key order is an invariant of the store -/

theorem mem_put {k v : Bytes} {l : List (Bytes × Bytes)} {y : Bytes × Bytes}
    (h : y ∈ put k v l) : y = (k, v) ∨ y ∈ l := by
  induction l with
  | nil => simpa [put] using h
  | cons x l ih =>
    rcases x with ⟨k', v'⟩
    simp only [put] at h
    split_ifs at h with h1 h2
    · rcases List.mem_cons.mp h with h | h
      · exact Or.inr (by simp [h])
      · rcases ih h with h | h
        · exact Or.inl h
        · exact Or.inr (List.mem_cons_of_mem _ h)
    · rcases List.mem_cons.mp h with h | h
      · exact Or.inl h
      · exact Or.inr (List.mem_cons_of_mem _ h)
    · rcases List.mem_cons.mp h with h | h
      · exact Or.inl h
      · exact Or.inr h

theorem put_sorted (k v : Bytes) (l : List (Bytes × Bytes))
    (h : l.Pairwise (fun x y => bytesCompare x.1 y.1 < 0)) :
    (put k v l).Pairwise (fun x y => bytesCompare x.1 y.1 < 0) := by
  induction l with
  | nil => simp [put]
  | cons x l ih =>
    rcases x with ⟨k', v'⟩
    rw [List.pairwise_cons] at h
    simp only [put]
    split_ifs with h1 h2
    · rw [List.pairwise_cons]
      refine ⟨?_, ih h.2⟩
      intro y hy
      rcases mem_put hy with rfl | hy
      · exact h1
      · exact h.1 y hy
    · have hk : k' = k := bytesCompare_eq_zero.mp h2
      subst hk
      rw [List.pairwise_cons]
      exact ⟨h.1, h.2⟩
    · have h3 : bytesCompare k k' < 0 := by
        rw [bytesCompare_neg]; omega
      rw [List.pairwise_cons, List.pairwise_cons]
      refine ⟨?_, h.1, h.2⟩
      intro y hy
      rcases List.mem_cons.mp hy with rfl | hy
      · exact h3
      · exact bytesCompare_lt_trans h3 (h.1 y hy)

theorem foldl_put_sorted (ws : List (Bytes × Bytes)) :
    ∀ l : List (Bytes × Bytes), l.Pairwise (fun x y => bytesCompare x.1 y.1 < 0) →
      (ws.foldl (fun acc w => put w.1 w.2 acc) l).Pairwise
        (fun x y => bytesCompare x.1 y.1 < 0) := by
  induction ws with
  | nil => intro l h; exact h
  | cons w ws ih => intro l h; exact ih _ (put_sorted w.1 w.2 l h)

theorem Mutate_sorted (s : BadgerStore) (batch : List Mutation) (h : s.db.Sorted) :
    (s.Mutate batch).2.db.Sorted := by
  unfold BadgerStore.Mutate DB.Update
  cases Mutate.loop batch { db := s.db, pending := [] } with
  | error e => exact h
  | ok txn =>
    cases hc : s.db.commitFault txn.pending with
    | some c => simp only [hc]; exact h
    | none => simp only [hc]; exact foldl_put_sorted txn.pending s.db.items h

theorem Load_sorted (env : Env) (s : BadgerStore) (rc : Bytes) (h : s.db.Sorted) :
    (s.Load env rc).2.db.Sorted := by
  unfold BadgerStore.Load
  cases env.decodeDump rc with
  | error e => exact h
  | ok pairs => exact foldl_put_sorted pairs [] List.Pairwise.nil

theorem exec_sorted (env : Env) (fsm fsm' : FSM) (op : Op) (h : fsm.store.db.Sorted)
    (hex : fsm.exec env op = some fsm') : fsm'.store.db.Sorted := by
  cases op with
  | apply data =>
    simp only [FSM.exec, FSM.Apply] at hex
    cases hdec : env.unmarshalCommand data with
    | error e => simp [hdec] at hex
    | ok cmd =>
      simp only [hdec] at hex
      by_cases ht : cmd.Typ = env.insert
      · simp only [ht, if_true] at hex
        cases hsub : env.unmarshalInsert cmd.Sub with
        | error e =>
          simp only [hsub, Option.some.injEq] at hex
          subst hex; exact h
        | ok sub =>
          simp only [hsub, FSM.applyAdd, Option.some.injEq] at hex
          subst hex
          exact Mutate_sorted fsm.store _ h
      · simp only [ht, if_false, Option.some.injEq] at hex
        subst hex; exact h
  | restore rc =>
    simp only [FSM.exec, Option.some.injEq] at hex
    subst hex
    have hl := Load_sorted env fsm.store rc h
    unfold FSM.Restore
    cases hload : fsm.store.Load env rc with
    | mk err store =>
      rw [hload] at hl
      cases err with
      | some e => exact hl
      | none =>
        simp only
        cases store.Get env.VersionPrefix env.VersionKey <;> exact hl

/-- Every store a run of the machine reaches from a store in key order is in key
order. -/
theorem run_sorted (env : Env) (ops : List Op) :
    ∀ fsm fsm' : FSM, fsm.store.db.Sorted → FSM.run env ops fsm = some fsm' →
      fsm'.store.db.Sorted := by
  induction ops with
  | nil =>
    intro fsm fsm' h hrun
    simp only [FSM.run, Option.some.injEq] at hrun
    subst hrun; exact h
  | cons op ops ih =>
    intro fsm fsm' h hrun
    simp only [FSM.run] at hrun
    cases hex : fsm.exec env op with
    | none => simp [hex] at hrun
    | some fsm1 =>
      simp only [hex, Option.some_bind] at hrun
      exact ih fsm1 fsm' (exec_sorted env fsm fsm1 op h hex) hrun

/-! ## Lemmas on the version counter -/

theorem Apply_version (env : Env) (fsm fsm' : FSM) (data : Bytes) (resp : Response)
    (h : fsm.Apply env data = .ret resp fsm') : fsm'.version = fsm.version := by
  simp only [FSM.Apply] at h
  cases hdec : env.unmarshalCommand data with
  | error e => simp [hdec] at h
  | ok cmd =>
    simp only [hdec] at h
    by_cases ht : cmd.Typ = env.insert
    · simp only [ht, if_true] at h
      cases hsub : env.unmarshalInsert cmd.Sub with
      | error e =>
        simp only [hsub, ApplyOutcome.ret.injEq] at h
        rw [← h.2]
      | ok sub =>
        simp only [hsub, FSM.applyAdd, ApplyOutcome.ret.injEq] at h
        rw [← h.2]
    · simp only [ht, if_false, ApplyOutcome.ret.injEq] at h
      rw [← h.2]

theorem Restore_cases (env : Env) (fsm : FSM) (rc : Bytes) :
    ((fsm.Restore env rc).err ≠ none ∧ (fsm.Restore env rc).fsm.version = fsm.version)
    ∨ ((fsm.Restore env rc).err = none ∧
        ∃ store kv, fsm.store.Load env rc = (none, store)
          ∧ store.Get env.VersionPrefix env.VersionKey = .ok kv
          ∧ (fsm.Restore env rc).fsm.version = (env.ToBytes kv.Value + 1) % 2 ^ 64) := by
  cases hload : fsm.store.Load env rc with
  | mk err store =>
    cases err with
    | some e => left; simp [FSM.Restore, hload]
    | none =>
      cases hget : store.Get env.VersionPrefix env.VersionKey with
      | error e => left; simp [FSM.Restore, hload, hget]
      | ok kv => right; exact ⟨by simp [FSM.Restore, hload, hget], store, kv, rfl, hget,
          by simp [FSM.Restore, hload, hget]⟩

theorem Restore_events (env : Env) (fsm : FSM) (rc : Bytes) :
    (fsm.Restore env rc).events = [.Load] ∨ (fsm.Restore env rc).events = [.Load, .Get] := by
  cases hload : fsm.store.Load env rc with
  | mk err store =>
    cases err with
    | some e => left; simp [FSM.Restore, hload]
    | none =>
      cases hget : store.Get env.VersionPrefix env.VersionKey with
      | error e => right; simp [FSM.Restore, hload, hget]
      | ok kv => right; simp [FSM.Restore, hload, hget]
/-! ## The claims -/
/-- C1, amended. `FSM.Apply` of a well-formed insert(k, v) entry returns a result. If the
store's `Mutate` succeeds the result is the add response without error and, if the read
of the key does not fail, `Get(HistoryCachePrefix, k)` afterwards returns `v`. The same
holds for a second insert under the same key, applied to the state the first one left:
the later write wins. -/
theorem C1_insert_then_get (env : Env) (fsm : FSM) (data k v : Bytes)
    (hwf : env.isInsert data k v) :
    ∃ resp fsm', fsm.Apply env data = .ret resp fsm'
      ∧ ((fsm.store.Mutate [⟨env.HistoryCachePrefix, k, v⟩]).1 = none →
          resp = .add v none
          ∧ (fsm.store.db.getFault (env.HistoryCachePrefix :: k) = none →
              fsm.store.db.valueFault (env.HistoryCachePrefix :: k) = none →
              fsm'.store.Get env.HistoryCachePrefix k = .ok ⟨k, v⟩))
      ∧ ∀ data2 v2, env.isInsert data2 k v2 →
          ∃ resp2 fsm'', fsm'.Apply env data2 = .ret resp2 fsm''
            ∧ ((fsm'.store.Mutate [⟨env.HistoryCachePrefix, k, v2⟩]).1 = none →
                resp2 = .add v2 none
                ∧ (fsm.store.db.getFault (env.HistoryCachePrefix :: k) = none →
                    fsm.store.db.valueFault (env.HistoryCachePrefix :: k) = none →
                    fsm''.store.Get env.HistoryCachePrefix k = .ok ⟨k, v2⟩)) := by
  refine ⟨_, _, Apply_insert env fsm data k v hwf, ?_, ?_⟩
  · intro hmut
    exact ⟨rfl, fun hg hv => insert_visible env fsm.store k v hmut hg hv⟩
  · intro data2 v2 hwf2
    refine ⟨_, _, Apply_insert env _ data2 k v2 hwf2, ?_⟩
    intro hmut
    refine ⟨rfl, fun hg hv => ?_⟩
    obtain ⟨f1, f2, -, -⟩ := Mutate_faults fsm.store [⟨env.HistoryCachePrefix, k, v⟩]
    exact insert_visible env _ k v2 hmut (by simp only [f1]; exact hg) (by simp only [f2]; exact hv)

/-- C1, an instance: on an empty store that accepts every write, insert("a","1") and
then insert("a","2") leave "2" under "a". -/
theorem C1_insert_then_get_witness :
    toyEnv.isInsert [0, 1, 97, 49] [97] [49] ∧
    ∃ fsm' fsm'', (NewFSM (healthy [])).Apply toyEnv [0, 1, 97, 49] = .ret (.add [49] none) fsm'
      ∧ fsm'.store.Get 0 [97] = .ok ⟨[97], [49]⟩
      ∧ fsm'.Apply toyEnv [0, 1, 97, 50] = .ret (.add [50] none) fsm''
      ∧ fsm''.store.Get 0 [97] = .ok ⟨[97], [50]⟩ := by
  have hwf : toyEnv.isInsert [0, 1, 97, 49] [97] [49] := ⟨⟨0, [1, 97, 49]⟩, rfl, rfl, rfl⟩
  have hwf2 : toyEnv.isInsert [0, 1, 97, 50] [97] [50] := ⟨⟨0, [1, 97, 50]⟩, rfl, rfl, rfl⟩
  obtain ⟨resp, fsm', h1, h2, h3⟩ := C1_insert_then_get toyEnv (NewFSM (healthy [])) _ _ _ hwf
  obtain ⟨resp2, fsm'', h4, h5⟩ := h3 _ _ hwf2
  have e1 := Apply_insert toyEnv (NewFSM (healthy [])) _ _ _ hwf
  rw [h1] at e1
  injection e1 with er e1
  have hm2 : (fsm'.store.Mutate [⟨toyEnv.HistoryCachePrefix, [97], [50]⟩]).1 = none := by
    rw [e1]; rfl
  rw [(h2 rfl).1] at h1
  rw [(h5 hm2).1] at h4
  exact ⟨hwf, fsm', fsm'', h1, (h2 rfl).2 rfl rfl, h4, (h5 hm2).2 rfl rfl⟩

/-- C1, as stated, fails: on a store whose engine rejects the write, `Apply` of
insert("a","1") returns, and `Get(HistoryCachePrefix, "a")` afterwards finds no value;
and on a store that holds the written value but cannot read it, `Get` returns an
error. -/
theorem C1_counterexample :
    toyEnv.isInsert [0, 1, 97, 49] [97] [49]
    ∧ (∃ resp fsm', (NewFSM (rejecting 1)).Apply toyEnv [0, 1, 97, 49] = .ret resp fsm'
        ∧ fsm'.store.Get toyEnv.HistoryCachePrefix [97] = .ok ⟨[97], []⟩)
    ∧ (∃ resp fsm', (NewFSM (unreadable [] 2)).Apply toyEnv [0, 1, 97, 49] = .ret resp fsm'
        ∧ fsm'.store.db.items = [([0, 97], [49])]
        ∧ fsm'.store.Get toyEnv.HistoryCachePrefix [97] = .error (.badger 2)) :=
  ⟨⟨⟨0, [1, 97, 49]⟩, rfl, rfl, rfl⟩, ⟨_, _, rfl, rfl⟩, ⟨_, _, rfl, rfl, rfl⟩⟩

/-- C2. When the envelope of an entry decodes and its type is not `insert` (type 99, for
one), or its type is `insert` and the payload does not decode as an insert sub-command,
`FSM.Apply` does not halt: it returns a generic response with a non-nil error, and the
machine, store content and version counter included, is as it was. -/
theorem C2_recoverable_error (env : Env) (fsm : FSM) (data : Bytes) (cmd : command)
    (hdec : env.unmarshalCommand data = .ok cmd)
    (hbad : cmd.Typ ≠ env.insert ∨
      (cmd.Typ = env.insert ∧ ∃ e, env.unmarshalInsert cmd.Sub = .error e)) :
    ∃ err, fsm.Apply env data = .ret (.generic (some err)) fsm := by
  rcases hbad with hne | ⟨heq, e, he⟩
  · exact ⟨.unknownCommand cmd.Typ, by simp [FSM.Apply, hdec, hne]⟩
  · exact ⟨e, by simp [FSM.Apply, hdec, heq, he]⟩

/-- C2, an instance: an envelope of type 99. -/
theorem C2_recoverable_error_witness :
    toyEnv.unmarshalCommand [99, 7] = .ok ⟨99, [7]⟩
    ∧ ((99 : Nat) ≠ toyEnv.insert ∨
        ((99 : Nat) = toyEnv.insert ∧ ∃ e, toyEnv.unmarshalInsert [7] = .error e))
    ∧ ∃ err, (NewFSM (healthy [([0, 97], [49])])).Apply toyEnv [99, 7]
        = .ret (.generic (some err)) (NewFSM (healthy [([0, 97], [49])])) :=
  ⟨rfl, Or.inl (by decide),
    C2_recoverable_error toyEnv _ [99, 7] ⟨99, [7]⟩ rfl (Or.inl (by decide))⟩

/-- C3. `FSM.Apply` halts exactly when the bytes of the entry fail to decode as a command
envelope, and when it halts the machine is in the state in which the call found it: no
store mutation has been issued. -/
theorem C3_fatal_decode (env : Env) (fsm : FSM) (data : Bytes) :
    ((∃ s, fsm.Apply env data = .panic s) ↔ ∃ e, env.unmarshalCommand data = .error e)
    ∧ ∀ s, fsm.Apply env data = .panic s → s = fsm := by
  cases hdec : env.unmarshalCommand data with
  | error e =>
    simp [FSM.Apply, hdec]
  | ok cmd =>
    by_cases ht : cmd.Typ = env.insert
    · cases hsub : env.unmarshalInsert cmd.Sub <;> simp [FSM.Apply, hdec, ht, hsub]
    · simp [FSM.Apply, hdec, ht]

/-- C4 fails on the code. The engine rejects the write of insert("a","1"), so `Mutate`
returns an error, and the response of `FSM.Apply` carries none. -/
theorem C4_mutate_error_dropped :
    toyEnv.isInsert [0, 1, 97, 49] [97] [49]
    ∧ ((rejecting 1).Mutate [⟨toyEnv.HistoryCachePrefix, [97], [49]⟩]).1 = some (.badger 1)
    ∧ ∃ fsm', (NewFSM (rejecting 1)).Apply toyEnv [0, 1, 97, 49] = .ret (.add [49] none) fsm' :=
  ⟨⟨⟨0, [1, 97, 49]⟩, rfl, rfl, rfl⟩, rfl, ⟨_, rfl⟩⟩

/-- C5, amended. On a store whose items are in key order, `GetRange(p, start, stop)`
never halts on `key[1:]`. The items it has to read are those stored under namespace `p`
with key in `[start, stop]`, less the ones whose prefixed key begins with `!badger!`,
which an iterator does not show. If the iterator does not end the process, `GetRange`
returns the error of the first value read that fails, and no entry, or, if no value read
fails, exactly those items, namespace byte stripped. Whenever it returns entries they
are exactly those; it returns an error only if such a value read failed, and the process
ends only if `Seek` or a `Next` of the scan did it, and does end if `Seek` does. The
entries named are the pairs
`(k, v)` with `(p :: k, v)` stored and shown and `start <= k <= stop`: none comes from
another namespace. They are in strictly ascending key order, so each occurs once. -/
theorem C5_GetRange (s : BadgerStore) (p : Byte) (start stop : Bytes) (hs : s.db.Sorted) :
    s.GetRange p start stop ≠ .panic
    ∧ (s.db.seekFault (p :: start) = false →
        (∀ x ∈ scanned s.db p start stop, s.db.nextFault x.1 = false) →
        s.GetRange p start stop
          = match firstValueFault s.db p start stop with
            | some c => .ret (.error (.badger c))
            | none => .ret (.ok (rangeOf s.db p start stop)))
    ∧ (∀ r, s.GetRange p start stop = .ret (.ok r) →
        r = rangeOf s.db p start stop ∧ firstValueFault s.db p start stop = none)
    ∧ (∀ err, s.GetRange p start stop = .ret (.error err) →
        ∃ c, firstValueFault s.db p start stop = some c ∧ err = .badger c)
    ∧ (s.GetRange p start stop = .exit →
        s.db.seekFault (p :: start) = true
          ∨ ∃ x ∈ scanned s.db p start stop, s.db.nextFault x.1 = true)
    ∧ (s.db.seekFault (p :: start) = true → s.GetRange p start stop = .exit)
    ∧ (firstValueFault s.db p start stop = none
        ↔ ∀ x ∈ scanned s.db p start stop, s.db.valueFault x.1 = none)
    ∧ (∀ x, x ∈ scanned s.db p start stop
        ↔ x ∈ s.db.items ∧ hidden x.1 = false ∧ inRange p start stop x.1 = true)
    ∧ (∀ k v, (⟨k, v⟩ : KVPair) ∈ rangeOf s.db p start stop
        ↔ (p :: k, v) ∈ s.db.items ∧ hidden (p :: k) = false
            ∧ bytesCompare start k ≤ 0 ∧ bytesCompare k stop ≤ 0)
    ∧ (rangeOf s.db p start stop).Pairwise (fun a b => bytesCompare a.Key b.Key < 0)
    ∧ (rangeOf s.db p start stop).Nodup := by
  have hsorted := rangeOf_sorted s.db p start stop hs
  refine ⟨?_, ?_, ?_, ?_, ?_, fun h => by simp [BadgerStore.GetRange, h],
    firstValueFault_none s.db p start stop,
    scanned_mem s.db p start stop, rangeOf_mem s.db p start stop, hsorted,
    pairwise_key_nodup _ hsorted⟩
  · rcases GetRange_spec s p start stop hs with ⟨h, -⟩ | ⟨c, -, h⟩ | ⟨-, h⟩ <;> simp [h]
  · intro hseek hnext
    rcases GetRange_spec s p start stop hs with ⟨-, h | ⟨x, hx, h⟩⟩ | ⟨c, hc, h⟩ | ⟨hnone, h⟩
    · rw [hseek] at h; exact absurd h (by simp)
    · rw [hnext x hx] at h; exact absurd h (by simp)
    · rw [hc]; exact h
    · rw [hnone]; exact h
  · intro r hr
    rcases GetRange_spec s p start stop hs with ⟨h, -⟩ | ⟨c, -, h⟩ | ⟨hnone, h⟩
    · rw [h] at hr; simp at hr
    · rw [h] at hr; simp at hr
    · rw [h] at hr
      injection hr with hr
      injection hr with hr
      exact ⟨hr.symm, hnone⟩
  · intro err herr
    rcases GetRange_spec s p start stop hs with ⟨h, -⟩ | ⟨c, hc, h⟩ | ⟨-, h⟩
    · rw [h] at herr; simp at herr
    · rw [h] at herr
      injection herr with herr
      injection herr with herr
      exact ⟨c, hc, herr.symm⟩
    · rw [h] at herr; simp at herr
  · intro hexit
    rcases GetRange_spec s p start stop hs with ⟨-, h⟩ | ⟨c, -, h⟩ | ⟨-, h⟩
    · exact h
    · rw [h] at hexit; simp at hexit
    · rw [h] at hexit; simp at hexit

/-- C5, instances: two namespaces hold the same raw keys, and the scan of namespace 0
over `[1, 2]` returns the two entries of namespace 0; on a store that cannot read its
values the scan returns the error of the read. -/
theorem C5_GetRange_witness :
    (healthy [([0, 1], [5]), ([0, 2], [6]), ([0, 2, 0], [7]), ([1, 1], [8]), ([1, 2], [9])]).db.Sorted
    ∧ (healthy [([0, 1], [5]), ([0, 2], [6]), ([0, 2, 0], [7]), ([1, 1], [8]), ([1, 2], [9])]).GetRange
        0 [1] [2] = .ret (.ok [⟨[1], [5]⟩, ⟨[2], [6]⟩])
    ∧ (unreadable [([0, 1], [5]), ([1, 1], [8])] 3).db.Sorted
    ∧ (unreadable [([0, 1], [5]), ([1, 1], [8])] 3).GetRange 0 [] [255]
        = .ret (.error (.badger 3)) := by
  have hs : (healthy [([0, 1], [5]), ([0, 2], [6]), ([0, 2, 0], [7]), ([1, 1], [8]),
      ([1, 2], [9])]).db.Sorted := by
    unfold DB.Sorted healthy
    decide
  have hu : (unreadable [([0, 1], [5]), ([1, 1], [8])] 3).db.Sorted := by
    unfold DB.Sorted unreadable
    decide
  exact ⟨hs, (C5_GetRange _ 0 [1] [2] hs).2.1 rfl (fun _ _ => rfl),
    hu, (C5_GetRange _ 0 [] [255] hu).2.1 rfl (fun _ _ => rfl)⟩

/-- C5, as stated, fails, in three ways. The store holds three entries under namespace
`!` (33), all in range; the key of the second begins with `!badger!`; `Get` reads it, and
`GetRange` over the namespace returns the other two. A store holds one entry under
namespace 0, its value cannot be read, and `GetRange` returns an error and no entry. On a
store whose iterator runs into a fatal assertion, `GetRange` does not return. -/
theorem C5_counterexample :
    (healthy [([33, 1], [5]), ([33, 98, 97, 100, 103, 101, 114, 33, 1], [6]),
        ([33, 99], [7])]).db.Sorted
    ∧ (healthy [([33, 1], [5]), ([33, 98, 97, 100, 103, 101, 114, 33, 1], [6]),
        ([33, 99], [7])]).Get 33 [98, 97, 100, 103, 101, 114, 33, 1]
        = .ok ⟨[98, 97, 100, 103, 101, 114, 33, 1], [6]⟩
    ∧ inRange 33 [] [255] [33, 98, 97, 100, 103, 101, 114, 33, 1] = true
    ∧ (healthy [([33, 1], [5]), ([33, 98, 97, 100, 103, 101, 114, 33, 1], [6]),
        ([33, 99], [7])]).GetRange 33 [] [255] = .ret (.ok [⟨[1], [5]⟩, ⟨[99], [7]⟩])
    ∧ (unreadable [([0, 1], [5])] 3).db.Sorted
    ∧ inRange 0 [] [255] [0, 1] = true
    ∧ (unreadable [([0, 1], [5])] 3).GetRange 0 [] [255] = .ret (.error (.badger 3))
    ∧ (exiting [([0, 1], [5])]).db.Sorted
    ∧ (exiting [([0, 1], [5])]).GetRange 0 [] [255] = .exit := by
  refine ⟨?_, rfl, rfl, rfl, ?_, rfl, rfl, ?_, rfl⟩
  · unfold DB.Sorted healthy
    decide
  · unfold DB.Sorted unreadable
    decide
  · unfold DB.Sorted exiting
    decide

/-- C6. `BadgerStore.Mutate` either returns no error, and then every physical key reads
as the batch wrote it last, or as before if the batch does not write it; or it returns
an error, and then the store is the store before the call: the writes of the batch that
were accepted before the failing one are not visible either. -/
theorem C6_Mutate_all_or_nothing (s : BadgerStore) (batch : List Mutation) :
    ((s.Mutate batch).1 = none ∧
      ∀ K, lookup K (s.Mutate batch).2.db.items
        = match lastWrite batch K with
          | some v => some v
          | none => lookup K s.db.items)
    ∨ ((s.Mutate batch).1 ≠ none ∧ (s.Mutate batch).2 = s) := by
  by_cases h : (s.Mutate batch).1 = none
  · left
    exact ⟨h, fun K => Mutate_ok_lookup s batch h K⟩
  · right
    exact ⟨h, Mutate_err_unchanged s batch h⟩

/-- C6, instances: a batch that writes a key twice leaves the second value; a batch whose
second write is rejected leaves nothing, its first write included. -/
theorem C6_Mutate_all_or_nothing_witness :
    lookup [1, 2] ((healthy [([1, 2], [0])]).Mutate
        [⟨1, [2], [3]⟩, ⟨0, [2], [3]⟩, ⟨1, [2], [4]⟩]).2.db.items = some [4]
    ∧ ((rejectingKey [([1, 2], [0])] [0, 9] 5).Mutate [⟨1, [2], [3]⟩, ⟨0, [9], [3]⟩]).1
        = some (.badger 5)
    ∧ ((rejectingKey [([1, 2], [0])] [0, 9] 5).Mutate [⟨1, [2], [3]⟩, ⟨0, [9], [3]⟩]).2
        = rejectingKey [([1, 2], [0])] [0, 9] 5 := by
  refine ⟨?_, rfl, ?_⟩
  · rcases C6_Mutate_all_or_nothing (healthy [([1, 2], [0])])
        [⟨1, [2], [3]⟩, ⟨0, [2], [3]⟩, ⟨1, [2], [4]⟩] with ⟨-, h⟩ | ⟨h, -⟩
    · rw [h]; rfl
    · exact absurd rfl h
  · rcases C6_Mutate_all_or_nothing (rejectingKey [([1, 2], [0])] [0, 9] 5)
        [⟨1, [2], [3]⟩, ⟨0, [9], [3]⟩] with ⟨h, -⟩ | ⟨-, h⟩
    · exact absurd h (by decide)
    · exact h

/-- C7. With `k` the prefixed key: if the underlying read finds no item under `k`, `Get`
returns a nil error and a result without value; if it finds the item and reads its
value `v`, `Get` returns a nil error and `v`; and `Get` returns an error exactly when the
underlying read, `txn.Get` or `item.ValueCopy`, fails with that error, which is then
not key-not-found. -/
theorem C7_Get (s : BadgerStore) (pfx : Byte) (key : Bytes) :
    (s.db.getFault (pfx :: key) = none → lookup (pfx :: key) s.db.items = none →
        s.Get pfx key = .ok ⟨key, []⟩)
    ∧ (∀ v, s.db.getFault (pfx :: key) = none → lookup (pfx :: key) s.db.items = some v →
        s.db.valueFault (pfx :: key) = none → s.Get pfx key = .ok ⟨key, v⟩)
    ∧ (∀ err, s.Get pfx key = .error err ↔
        err ≠ .ErrKeyNotFound ∧
          (Txn.Get { db := s.db, pending := [] } (pfx :: key) = .error err
            ∨ ∃ item, Txn.Get { db := s.db, pending := [] } (pfx :: key) = .ok item
                ∧ ValueCopy s.db item = .error err)) := by
  refine ⟨?_, ?_, ?_⟩
  · intro hg hl
    simp [BadgerStore.Get, Get.view, Txn.Get, hg, hl]
  · intro v hg hl hv
    simp [BadgerStore.Get, Get.view, Txn.Get, ValueCopy, hg, hl, hv]
  · intro err
    cases hg : s.db.getFault (pfx :: key) with
    | some c =>
      simp only [BadgerStore.Get, Get.view, Txn.Get, hg]
      constructor
      · intro h
        injection h with h
        subst h
        simp
      · rintro ⟨-, h | ⟨item, h, -⟩⟩
        · injection h with h
          rw [h]
        · simp at h
    | none =>
      cases hl : lookup (pfx :: key) s.db.items with
      | none =>
        simp only [BadgerStore.Get, Get.view, Txn.Get, hg, hl]
        constructor
        · intro h; simp at h
        · rintro ⟨hne, h | ⟨item, h, -⟩⟩
          · injection h with h
            exact absurd h.symm hne
          · simp at h
      | some v =>
        cases hv : s.db.valueFault (pfx :: key) with
        | none =>
          simp only [BadgerStore.Get, Get.view, Txn.Get, ValueCopy, hg, hl, hv]
          constructor
          · intro h; simp at h
          · rintro ⟨-, h | ⟨item, h, h2⟩⟩
            · simp at h
            · injection h with h
              subst h
              simp [hv] at h2
        | some c =>
          simp only [BadgerStore.Get, Get.view, Txn.Get, ValueCopy, hg, hl, hv]
          constructor
          · intro h
            injection h with h
            subst h
            exact ⟨by simp, Or.inr ⟨_, rfl, by simp [hv]⟩⟩
          · rintro ⟨-, h | ⟨item, h, h2⟩⟩
            · simp at h
            · injection h with h
              subst h
              simpa [hv] using h2

/-- C7, instances: an absent key, a present key, and a present key whose value cannot be
read. -/
theorem C7_Get_witness :
    (healthy [([1, 2], [9])]).Get 1 [3] = .ok ⟨[3], []⟩
    ∧ (healthy [([1, 2], [9])]).Get 1 [2] = .ok ⟨[2], [9]⟩
    ∧ (unreadable [([1, 2], [9])] 4).Get 1 [2] = .error (.badger 4) := by
  refine ⟨(C7_Get _ 1 [3]).1 rfl rfl, (C7_Get _ 1 [2]).2.1 [9] rfl rfl rfl, ?_⟩
  exact ((C7_Get (unreadable [([1, 2], [9])] 4) 1 [2]).2.2 (.badger 4)).mpr
    ⟨by decide, Or.inr ⟨([1, 2], [9]), rfl, rfl⟩⟩

/-- C8, amended. If `Load` succeeds and the loaded content stores `v`, decoding to the
version `n`, under the version key of the metadata namespace, and the read of that key
does not fail, then `FSM.Restore` returns no error and sets the version counter to
`n + 1` modulo `2 ^ 64`, which is `n + 1` unless `n` is the largest 64-bit value. If that
read fails, or if `Load` fails, `Restore` returns the error and the version counter is
as before. -/
theorem C8_Restore_version (env : Env) (fsm : FSM) (rc : Bytes) :
    (∀ store v n, fsm.store.Load env rc = (none, store) →
        lookup (env.VersionPrefix :: env.VersionKey) store.db.items = some v →
        env.ToBytes v = n →
        store.db.getFault (env.VersionPrefix :: env.VersionKey) = none →
        store.db.valueFault (env.VersionPrefix :: env.VersionKey) = none →
        (fsm.Restore env rc).err = none
        ∧ (fsm.Restore env rc).fsm.version = (n + 1) % 2 ^ 64
        ∧ (n + 1 < 2 ^ 64 → (fsm.Restore env rc).fsm.version = n + 1))
    ∧ (∀ store e, fsm.store.Load env rc = (none, store) →
        store.Get env.VersionPrefix env.VersionKey = .error e →
        (fsm.Restore env rc).err = some e ∧ (fsm.Restore env rc).fsm.version = fsm.version)
    ∧ (∀ e, (fsm.store.Load env rc).1 = some e →
        (fsm.Restore env rc).err = some e ∧ (fsm.Restore env rc).fsm.version = fsm.version) := by
  refine ⟨?_, ?_, ?_⟩
  · intro store v n hload hl hn hg hv
    have hget := Get_of_lookup store env.VersionPrefix env.VersionKey hg hv
    rw [hl] at hget
    simp only [Option.getD_some] at hget
    have hver : (fsm.Restore env rc).fsm.version = (n + 1) % 2 ^ 64 := by
      simp [FSM.Restore, hload, hget, hn]
    refine ⟨by simp [FSM.Restore, hload, hget], hver, ?_⟩
    intro hlt
    rw [hver, Nat.mod_eq_of_lt hlt]
  · intro store e hload hget
    simp [FSM.Restore, hload, hget]
  · intro e he
    cases hload : fsm.store.Load env rc with
    | mk err store =>
      rw [hload] at he
      simp only at he
      subst he
      simp [FSM.Restore, hload]

/-- C8, an instance: the stream stores version 7, and `Restore` sets the counter to 8. -/
theorem C8_Restore_version_witness :
    ((NewFSM (healthy [])).Restore toyEnv [1, 118, 0, 0, 0, 0, 0, 0, 0, 7]).err = none
    ∧ ((NewFSM (healthy [])).Restore toyEnv [1, 118, 0, 0, 0, 0, 0, 0, 0, 7]).fsm.version = 8 := by
  have h := (C8_Restore_version toyEnv (NewFSM (healthy []))
    [1, 118, 0, 0, 0, 0, 0, 0, 0, 7]).1 _ [0, 0, 0, 0, 0, 0, 0, 7] 7 rfl rfl rfl rfl rfl
  exact ⟨h.1, h.2.2 (by norm_num)⟩

/-- C8, as stated, fails: the stream stores the largest 64-bit version, `Restore` returns
no error and the counter is 0; and on a store that cannot read the value of the version
key, `Load` succeeds, the content stores version 7, and `Restore` returns an error and
leaves the counter at 0. -/
theorem C8_counterexample :
    ((healthy []).Load toyEnv [1, 118, 255, 255, 255, 255, 255, 255, 255, 255]).1 = none
    ∧ (lookup (toyEnv.VersionPrefix :: toyEnv.VersionKey)
        ((healthy []).Load toyEnv [1, 118, 255, 255, 255, 255, 255, 255, 255, 255]).2.db.items).map
          toyEnv.ToBytes = some (2 ^ 64 - 1)
    ∧ ((NewFSM (healthy [])).Restore toyEnv
        [1, 118, 255, 255, 255, 255, 255, 255, 255, 255]).err = none
    ∧ ((NewFSM (healthy [])).Restore toyEnv
        [1, 118, 255, 255, 255, 255, 255, 255, 255, 255]).fsm.version = 0
    ∧ ((unreadable [] 2).Load toyEnv [1, 118, 0, 0, 0, 0, 0, 0, 0, 7]).1 = none
    ∧ (lookup (toyEnv.VersionPrefix :: toyEnv.VersionKey)
        ((unreadable [] 2).Load toyEnv [1, 118, 0, 0, 0, 0, 0, 0, 0, 7]).2.db.items).map
          toyEnv.ToBytes = some 7
    ∧ ((NewFSM (unreadable [] 2)).Restore toyEnv [1, 118, 0, 0, 0, 0, 0, 0, 0, 7]).err
        = some (.badger 2)
    ∧ ((NewFSM (unreadable [] 2)).Restore toyEnv [1, 118, 0, 0, 0, 0, 0, 0, 0, 7]).fsm.version
        = 0 := by
  refine ⟨rfl, ?_, rfl, ?_, rfl, ?_, rfl, rfl⟩
  · decide
  · decide
  · decide

/-- C9, amended. `Apply` never changes the version counter, and neither does a `Restore`
that returns an error. A `Restore` that returns no error sets the counter to the stored
version plus one, modulo `2 ^ 64`, whatever the counter was before. So over a run of
`Apply` and `Restore` calls in which no `Restore` succeeds the counter keeps its
value. -/
theorem C9_version_counter (env : Env) :
    (∀ (fsm fsm' : FSM) data resp, fsm.Apply env data = .ret resp fsm' →
        fsm'.version = fsm.version)
    ∧ (∀ (fsm : FSM) rc, (fsm.Restore env rc).err ≠ none →
        (fsm.Restore env rc).fsm.version = fsm.version)
    ∧ (∀ (fsm : FSM) rc, (fsm.Restore env rc).err = none →
        ∃ store kv, fsm.store.Load env rc = (none, store)
          ∧ store.Get env.VersionPrefix env.VersionKey = .ok kv
          ∧ (fsm.Restore env rc).fsm.version = (env.ToBytes kv.Value + 1) % 2 ^ 64)
    ∧ (∀ ops (fsm fsm' : FSM), FSM.run env ops fsm = some fsm' →
        FSM.noRestoreSucceeds env ops fsm = true → fsm'.version = fsm.version) := by
  refine ⟨fun fsm fsm' data resp h => Apply_version env fsm fsm' data resp h, ?_, ?_, ?_⟩
  · intro fsm rc hne
    rcases Restore_cases env fsm rc with h | h
    · exact h.2
    · exact absurd h.1 hne
  · intro fsm rc he
    rcases Restore_cases env fsm rc with h | h
    · exact absurd he h.1
    · exact h.2
  · intro ops
    induction ops with
    | nil =>
      intro fsm fsm' hrun _
      simp only [FSM.run, Option.some.injEq] at hrun
      rw [hrun]
    | cons op ops ih =>
      intro fsm fsm' hrun hq
      cases op with
      | apply data =>
        simp only [FSM.run] at hrun
        cases hex : fsm.exec env (.apply data) with
        | none => simp [hex] at hrun
        | some fsm1 =>
          simp only [hex, Option.some_bind] at hrun
          simp only [FSM.noRestoreSucceeds, hex] at hq
          rw [ih fsm1 fsm' hrun hq]
          simp only [FSM.exec] at hex
          cases happ : fsm.Apply env data with
          | panic s => simp [happ] at hex
          | ret resp s =>
            simp only [happ, Option.some.injEq] at hex
            subst hex
            exact Apply_version env fsm s data resp happ
      | restore rc =>
        simp only [FSM.run, FSM.exec, Option.some_bind] at hrun
        simp only [FSM.noRestoreSucceeds, Bool.and_eq_true] at hq
        rw [ih _ fsm' hrun hq.2]
        rcases Restore_cases env fsm rc with h | h
        · exact h.2
        · rw [h.1] at hq
          simp at hq

/-- C9, an instance: an insert, an unknown command and a `Restore` of a stream that
does not deserialize leave the counter of a new machine at 0. -/
theorem C9_version_counter_witness :
    ∃ fsm', FSM.run toyEnv [.apply [0, 1, 97, 49], .apply [99], .restore [5]]
        (NewFSM (healthy [])) = some fsm' ∧ fsm'.version = 0 :=
  ⟨_, rfl, (C9_version_counter toyEnv).2.2.2
    [.apply [0, 1, 97, 49], .apply [99], .restore [5]] (NewFSM (healthy [])) _ rfl rfl⟩

/-- C9, as stated, fails: a `Restore` of a stream that stores version 7 sets the counter
to 8, and a following `Restore` of a stream that stores version 0 sets it to 1. -/
theorem C9_counterexample :
    (FSM.run toyEnv [.restore [1, 118, 0, 0, 0, 0, 0, 0, 0, 7]]
        (NewFSM (healthy []))).map FSM.version = some 8
    ∧ (FSM.run toyEnv [.restore [1, 118, 0, 0, 0, 0, 0, 0, 0, 7],
          .restore [1, 118, 0, 0, 0, 0, 0, 0, 0, 0]]
        (NewFSM (healthy []))).map FSM.version = some 1 := by
  constructor <;> decide

/-- C10, amended. `FSM.Restore` performs no operation on the restore lock. `FSM.Snapshot`
takes the lock in exclusive mode, creates the dump handle and releases the lock. So the
lock does not keep the two apart: after `Snapshot` has taken the lock, and before it
releases it, `Restore` can perform its `Load`. -/
theorem C10_restore_lock (env : Env) (fsm : FSM) (rc : Bytes) :
    (∀ e ∈ (fsm.Restore env rc).events,
        e ≠ .Lock ∧ e ≠ .Unlock ∧ e ≠ .RLock ∧ e ≠ .RUnlock)
    ∧ fsm.Snapshot.2 = [.Lock, .NewSnapshot, .Unlock]
    ∧ ∃ rest, (fsm.Restore env rc).events = .Load :: rest
        ∧ Threads.run [true, false]
            { mu := ⟨false, 0⟩, snapshot := fsm.Snapshot.2,
              restore := (fsm.Restore env rc).events }
          = some { mu := ⟨true, 0⟩, snapshot := [.NewSnapshot, .Unlock], restore := rest } := by
  refine ⟨?_, rfl, ?_⟩
  · intro e he
    rcases Restore_events env fsm rc with h | h <;> rw [h] at he <;> simp at he
    · subst he; decide
    · rcases he with rfl | rfl <;> decide
  · rcases Restore_events env fsm rc with h | h
    · exact ⟨[], h, by rw [h]; rfl⟩
    · exact ⟨[.Get], h, by rw [h]; rfl⟩

/-- C10, as stated, fails: `Restore` never takes the lock, `Snapshot` does not take it in
shared mode, and a schedule lets `Restore` load while `Snapshot` holds the lock. -/
theorem C10_counterexample :
    Event.Lock ∉ ((NewFSM (healthy [])).Restore toyEnv [1, 118, 0, 0, 0, 0, 0, 0, 0, 7]).events
    ∧ Event.RLock ∉ (NewFSM (healthy [])).Snapshot.2
    ∧ Event.Lock ∈ (NewFSM (healthy [])).Snapshot.2
    ∧ Threads.run [true, false]
        { mu := ⟨false, 0⟩, snapshot := (NewFSM (healthy [])).Snapshot.2,
          restore := ((NewFSM (healthy [])).Restore toyEnv
            [1, 118, 0, 0, 0, 0, 0, 0, 0, 7]).events }
      = some { mu := ⟨true, 0⟩, snapshot := [.NewSnapshot, .Unlock], restore := [.Get] } := by
  refine ⟨?_, ?_, ?_, ?_⟩ <;> decide

end RaftBadger
